import Mathlib

/-!
Verification of the Lexi-Graph retrieval and ingestion core.

This file gives a shallow embedding, in Lean 4, of the parts of the
repository that the specification's claims are about:

* the confidence gate of `process_query` (src/service/query_service.py),
* reciprocal rank fusion (`_reciprocal_rank_fusion`),
* the BM25 keyword-index cache (`_get_bm25_index_for_case`),
* the query orchestrator `process_query` over an abstract environment of
  external services,
* the hybrid chunk packer and the batch fan-out of
  `prepare_and_process_document` (src/tasks.py), and
* the chunk-id assignment of `embed_and_store_batch`.

Python floats are modelled as rationals (the claims under study only
compare distances against the two threshold constants, and that ordering
structure is identical); Python strings are `String`, Python lists are
`List`, and a Python `dict` (insertion ordered) is an association list.
Fallible code is modelled in `Except`.
-/

namespace LexiGraph

/-! ### Confidence gate (src/service/query_service.py, process_query step 2)

The source reads:

  if top_document_distance <= SLAM_DUNK_THRESHOLD: ... fast path exit
  elif top_document_distance > MISS_THRESHOLD: ... miss exit
  else: ... deep dive
-/

def SLAM_DUNK_THRESHOLD : ℚ := 0.4

def MISS_THRESHOLD : ℚ := 0.9

inductive Route where
  | fastExit
  | missExit
  | deepDive
deriving DecidableEq, Repr

/-- The routing decision of the confidence gate, embedded from the
`if / elif / else` chain of `process_query`. -/
def gateRoute (d : ℚ) : Route :=
  if d ≤ SLAM_DUNK_THRESHOLD then Route.fastExit
  else if d > MISS_THRESHOLD then Route.missExit
  else Route.deepDive

/-! ### Reciprocal rank fusion (src/service/query_service.py)

`_reciprocal_rank_fusion` accumulates scores in an insertion-ordered
dict and then sorts the items by score, descending, with Python's stable
`sorted`.  The dict is modelled as an association list to which new ids
are appended; the stable descending sort is modelled by Mathlib's
`insertionSort` with the total preorder `scoreGE` (insertion sort with a
total preorder is exactly the stable sort, which is what Python's
`sorted(..., reverse=True)` computes). -/

/-- One dict update `ranked_scores[doc_id] += w` (with the implicit
`ranked_scores[doc_id] = 0` initialisation for unseen ids). -/
def upsert (acc : List (String × ℚ)) (id : String) (w : ℚ) : List (String × ℚ) :=
  if acc.any (fun p => p.1 = id) then
    acc.map (fun p => if p.1 = id then (p.1, p.2 + w) else p)
  else
    acc ++ [(id, w)]

/-- The accumulation loop of `_reciprocal_rank_fusion`: for each list,
for each id at zero-based rank `r`, add `1 / (k + r + 1)`
(`List.enum` pairs each element with its zero-based rank, like Python's
`enumerate`). -/
def rrfAcc (results_lists : List (List String)) (k : ℕ) : List (String × ℚ) :=
  results_lists.foldl
    (fun acc doc_list =>
      doc_list.enum.foldl
        (fun acc p => upsert acc p.2 (1 / ((k : ℚ) + (p.1 : ℚ) + 1)))
        acc)
    []

/-- The comparison used by the final `sorted(..., key=score, reverse=True)`. -/
def scoreGE (a b : String × ℚ) : Prop := a.2 ≥ b.2

instance : DecidableRel scoreGE := fun a b => inferInstanceAs (Decidable (a.2 ≥ b.2))

instance : IsTotal (String × ℚ) scoreGE := ⟨fun a b => le_total b.2 a.2⟩

instance : IsTrans (String × ℚ) scoreGE := ⟨fun _ _ _ h h' => le_trans h' h⟩

/-- `_reciprocal_rank_fusion`: the returned (insertion-ordered) dict, as
the sorted association list.  In the source `k` defaults to 60 and every
caller uses that default. -/
def reciprocalRankFusion (results_lists : List (List String)) (k : ℕ) :
    List (String × ℚ) :=
  (rrfAcc results_lists k).insertionSort scoreGE

/-- The score the fused dict assigns to an id (0 when absent, matching
the accumulator's implicit initialisation). -/
def lookupScore : List (String × ℚ) → String → ℚ
  | [], _ => 0
  | p :: acc, id => if p.1 = id then p.2 else lookupScore acc id

/-- The specification's formula for an id's fused score: the sum over
the input lists of `1 / (k + r + 1)` at the id's zero-based rank `r`,
with lists not containing the id contributing 0. -/
def specScore (results_lists : List (List String)) (k : ℕ) (id : String) : ℚ :=
  (results_lists.map
    (fun l => if id ∈ l then 1 / ((k : ℚ) + l.indexOf id + 1) else 0)).sum

/-- The inner accumulation over one ranked list, with the rank counter
started at `n`; `rrfAcc`'s inner loop is `rrfFoldFrom k 0`. -/
def rrfFoldFrom (k : ℕ) (n : ℕ) (doc_list : List String)
    (acc : List (String × ℚ)) : List (String × ℚ) :=
  (doc_list.enumFrom n).foldl
    (fun acc p => upsert acc p.2 (1 / ((k : ℚ) + (p.1 : ℚ) + 1)))
    acc

/-- First-occurrence key accumulation: the sequence of dict keys, in
insertion order, after feeding `ids` to a dict whose keys are `ks`. -/
def keysAfter (ks : List String) (ids : List String) : List String :=
  ids.foldl (fun ks id => if id ∈ ks then ks else ks ++ [id]) ks

theorem rrfAcc_eq_foldl (results_lists : List (List String)) (k : ℕ) :
    rrfAcc results_lists k =
      results_lists.foldl (fun acc l => rrfFoldFrom k 0 l acc) [] := rfl

theorem rrfFoldFrom_nil (k n : ℕ) (acc : List (String × ℚ)) :
    rrfFoldFrom k n [] acc = acc := rfl

theorem rrfFoldFrom_cons (k n : ℕ) (x : String) (xs : List String)
    (acc : List (String × ℚ)) :
    rrfFoldFrom k n (x :: xs) acc =
      rrfFoldFrom k (n + 1) xs (upsert acc x (1 / ((k : ℚ) + (n : ℚ) + 1))) := rfl

theorem keys_upsert (acc : List (String × ℚ)) (id : String) (w : ℚ) :
    (upsert acc id w).map Prod.fst =
      if id ∈ acc.map Prod.fst then acc.map Prod.fst
      else acc.map Prod.fst ++ [id] := by
  unfold upsert
  by_cases h : id ∈ acc.map Prod.fst
  · have hany : acc.any (fun p => decide (p.1 = id)) = true := by
      simp only [List.any_eq_true, decide_eq_true_eq]
      obtain ⟨p, hp, hfst⟩ := List.exists_of_mem_map h
      exact ⟨p, hp, hfst⟩
    rw [if_pos hany, if_pos h, List.map_map]
    refine List.map_congr_left fun p _ => ?_
    by_cases hp : p.1 = id <;> simp [hp]
  · have hany : ¬ acc.any (fun p => decide (p.1 = id)) = true := by
      simp only [List.any_eq_true, decide_eq_true_eq]
      rintro ⟨p, hp, hfst⟩
      exact h (List.mem_map.mpr ⟨p, hp, hfst⟩)
    rw [if_neg hany, if_neg h]
    simp

theorem lookupScore_eq_zero_of_not_mem {acc : List (String × ℚ)} {id : String}
    (h : id ∉ acc.map Prod.fst) : lookupScore acc id = 0 := by
  induction acc with
  | nil => rfl
  | cons p acc ih =>
    simp only [List.map_cons, List.mem_cons, not_or] at h
    have hne : ¬ p.1 = id := fun hp => h.1 hp.symm
    simp only [lookupScore, if_neg hne]
    exact ih h.2

theorem lookupScore_map_bump {acc : List (String × ℚ)} {id x : String}
    (w : ℚ) :
    lookupScore (acc.map (fun p => if p.1 = id then (p.1, p.2 + w) else p)) x =
      if x = id ∧ x ∈ acc.map Prod.fst then lookupScore acc x + w
      else lookupScore acc x := by
  induction acc with
  | nil => simp [lookupScore]
  | cons p acc ih =>
    by_cases hp : p.1 = id
    · by_cases hpx : p.1 = x
      · have hxid : x = id := hpx ▸ hp
        simp [lookupScore, hp, hpx, hxid]
      · have hfst : (if p.1 = id then (p.1, p.2 + w) else p).1 = p.1 := by
          simp [hp]
        simp only [List.map_cons, lookupScore, if_pos hp]
        simp only [lookupScore] at ih ⊢
        rw [show ((p.1, p.2 + w) : String × ℚ).1 = p.1 from rfl]
        rw [if_neg hpx, if_neg hpx, ih]
        by_cases hx : x = id ∧ x ∈ acc.map Prod.fst
        · rw [if_pos hx, if_pos ⟨hx.1, by simp [hx.2]⟩]
        · rw [if_neg hx, if_neg ?_]
          rintro ⟨h1, h2⟩
          simp only [List.map_cons, List.mem_cons] at h2
          rcases h2 with h2 | h2
          · exact hpx (h2.symm)
          · exact hx ⟨h1, h2⟩
    · by_cases hpx : p.1 = x
      · simp only [List.map_cons, lookupScore, if_neg hp, if_pos hpx]
        rw [if_neg ?_]
        rintro ⟨h1, _⟩
        exact hp (hpx.trans h1)
      · simp only [List.map_cons, lookupScore, if_neg hp, if_neg hpx, ih]
        by_cases hx : x = id ∧ x ∈ acc.map Prod.fst
        · rw [if_pos hx, if_pos ⟨hx.1, by simp [hx.2]⟩]
        · rw [if_neg hx, if_neg ?_]
          rintro ⟨h1, h2⟩
          simp only [List.map_cons, List.mem_cons] at h2
          rcases h2 with h2 | h2
          · exact hpx h2.symm
          · exact hx ⟨h1, h2⟩

theorem lookupScore_append_single {acc : List (String × ℚ)} {id x : String}
    (w : ℚ) :
    lookupScore (acc ++ [(id, w)]) x =
      if x = id ∧ x ∉ acc.map Prod.fst then lookupScore acc x + w
      else lookupScore acc x := by
  induction acc with
  | nil =>
    by_cases hx : x = id
    · simp [lookupScore, hx]
    · have : ¬ id = x := fun h => hx h.symm
      simp [lookupScore, this, hx]
  | cons p acc ih =>
    by_cases hpx : p.1 = x
    · have hcond : ¬ (x = id ∧ x ∉ (p :: acc).map Prod.fst) := by
        rintro ⟨_, h2⟩
        exact h2 (by simp [hpx.symm])
      simp [lookupScore, hpx, hcond]
    · have hcons : (x = id ∧ x ∉ (p :: acc).map Prod.fst) ↔
          (x = id ∧ x ∉ acc.map Prod.fst) := by
        simp only [List.map_cons, List.mem_cons, not_or]
        constructor
        · rintro ⟨h1, _, h3⟩; exact ⟨h1, h3⟩
        · rintro ⟨h1, h3⟩; exact ⟨h1, fun hh => hpx hh.symm, h3⟩
      simp only [List.cons_append, lookupScore, if_neg hpx, List.append_eq]
      rw [ih]
      by_cases hx : x = id ∧ x ∉ acc.map Prod.fst
      · rw [if_pos hx, if_pos (hcons.mpr hx)]
      · rw [if_neg hx, if_neg (fun hc => hx (hcons.mp hc))]

theorem any_key_iff (acc : List (String × ℚ)) (id : String) :
    acc.any (fun p => decide (p.1 = id)) = true ↔ id ∈ acc.map Prod.fst := by
  simp only [List.any_eq_true, decide_eq_true_eq, List.mem_map]

theorem lookupScore_upsert_self (acc : List (String × ℚ)) (id : String) (w : ℚ) :
    lookupScore (upsert acc id w) id = lookupScore acc id + w := by
  unfold upsert
  by_cases h : id ∈ acc.map Prod.fst
  · rw [if_pos ((any_key_iff acc id).mpr h), lookupScore_map_bump,
      if_pos ⟨rfl, h⟩]
  · rw [if_neg (fun ha => h ((any_key_iff acc id).mp ha)),
      lookupScore_append_single, if_pos ⟨rfl, h⟩]

theorem lookupScore_upsert_other (acc : List (String × ℚ)) {id x : String}
    (hx : x ≠ id) (w : ℚ) :
    lookupScore (upsert acc id w) x = lookupScore acc x := by
  unfold upsert
  by_cases h : id ∈ acc.map Prod.fst
  · rw [if_pos ((any_key_iff acc id).mpr h), lookupScore_map_bump,
      if_neg (fun hc => hx hc.1)]
  · rw [if_neg (fun ha => h ((any_key_iff acc id).mp ha)),
      lookupScore_append_single, if_neg (fun hc => hx hc.1)]

theorem lookupScore_rrfFoldFrom (k : ℕ) (id : String) :
    ∀ (xs : List String), xs.Nodup → ∀ (n : ℕ) (acc : List (String × ℚ)),
      lookupScore (rrfFoldFrom k n xs acc) id =
        lookupScore acc id +
          (if id ∈ xs then 1 / ((k : ℚ) + n + xs.indexOf id + 1) else 0) := by
  intro xs
  induction xs with
  | nil => intro _ n acc; simp [rrfFoldFrom_nil]
  | cons x xs ih =>
    intro hnd n acc
    have hx_not : x ∉ xs := (List.nodup_cons.mp hnd).1
    have hxs_nd : xs.Nodup := (List.nodup_cons.mp hnd).2
    rw [rrfFoldFrom_cons, ih hxs_nd]
    by_cases hid : id = x
    · subst hid
      rw [lookupScore_upsert_self, if_neg hx_not, if_pos (List.mem_cons_self id xs)]
      have : List.indexOf id (id :: xs) = 0 := List.indexOf_cons_self id xs
      rw [this]
      push_cast
      ring
    · rw [lookupScore_upsert_other acc hid]
      by_cases hm : id ∈ xs
      · rw [if_pos hm, if_pos (List.mem_cons_of_mem x hm)]
        have : List.indexOf id (x :: xs) = (List.indexOf id xs) + 1 :=
          List.indexOf_cons_ne xs (fun h => hid h.symm)
        rw [this]
        push_cast
        ring_nf
      · rw [if_neg hm, if_neg ?_]
        simp only [List.mem_cons, not_or]
        exact ⟨hid, hm⟩

theorem keys_rrfFoldFrom (k : ℕ) :
    ∀ (xs : List String) (n : ℕ) (acc : List (String × ℚ)),
      (rrfFoldFrom k n xs acc).map Prod.fst =
        keysAfter (acc.map Prod.fst) xs := by
  intro xs
  induction xs with
  | nil => intro n acc; rfl
  | cons x xs ih =>
    intro n acc
    rw [rrfFoldFrom_cons, ih]
    show _ = keysAfter _ (x :: xs)
    unfold keysAfter
    rw [List.foldl_cons]
    congr 1
    exact keys_upsert acc x _

theorem keysAfter_append (ks : List String) (a b : List String) :
    keysAfter ks (a ++ b) = keysAfter (keysAfter ks a) b := by
  unfold keysAfter
  rw [List.foldl_append]

theorem mem_keysAfter (x : String) :
    ∀ (ids ks : List String), x ∈ keysAfter ks ids ↔ x ∈ ks ∨ x ∈ ids := by
  intro ids
  induction ids with
  | nil => intro ks; simp [keysAfter]
  | cons i ids ih =>
    intro ks
    show x ∈ keysAfter (if i ∈ ks then ks else ks ++ [i]) ids ↔ _
    rw [ih]
    by_cases hi : i ∈ ks
    · rw [if_pos hi]
      constructor
      · rintro (h | h)
        · exact Or.inl h
        · exact Or.inr (List.mem_cons_of_mem i h)
      · rintro (h | h)
        · exact Or.inl h
        · rcases List.mem_cons.mp h with h | h
          · exact Or.inl (h ▸ hi)
          · exact Or.inr h
    · rw [if_neg hi]
      simp only [List.mem_append, List.mem_singleton, List.mem_cons]
      tauto

theorem nodup_keysAfter :
    ∀ (ids ks : List String), ks.Nodup → (keysAfter ks ids).Nodup := by
  intro ids
  induction ids with
  | nil => intro ks h; exact h
  | cons i ids ih =>
    intro ks h
    show ((keysAfter (if i ∈ ks then ks else ks ++ [i]) ids)).Nodup
    apply ih
    by_cases hi : i ∈ ks
    · rwa [if_pos hi]
    · rw [if_neg hi]
      simpa [List.nodup_append] using ⟨h, hi⟩

theorem pairwise_keysAfter (L : List String) :
    ∀ (ids pre ks : List String), pre ++ ids = L →
      (∀ x, x ∈ ks ↔ x ∈ pre) →
      ks.Pairwise (fun a b => L.indexOf a < L.indexOf b) →
      (keysAfter ks ids).Pairwise (fun a b => L.indexOf a < L.indexOf b) := by
  intro ids
  induction ids with
  | nil => intro pre ks _ _ hp; exact hp
  | cons i ids ih =>
    intro pre ks hL hmem hp
    show ((keysAfter (if i ∈ ks then ks else ks ++ [i]) ids)).Pairwise _
    by_cases hi : i ∈ ks
    · rw [if_pos hi]
      refine ih (pre ++ [i]) ks ?_ ?_ hp
      · rw [← hL]; simp
      · intro x
        rw [hmem x]
        simp only [List.mem_append, List.mem_singleton]
        constructor
        · exact Or.inl
        · rintro (h | rfl)
          · exact h
          · exact (hmem _).mp hi
    · rw [if_neg hi]
      have hipre : i ∉ pre := fun h => hi ((hmem i).mpr h)
      have hidx : L.indexOf i = pre.length := by
        rw [← hL, List.indexOf_append_of_not_mem hipre, List.indexOf_cons_self]
        omega
      have hlt : ∀ a ∈ ks, L.indexOf a < L.indexOf i := by
        intro a ha
        have hapre : a ∈ pre := (hmem a).mp ha
        have : L.indexOf a = pre.indexOf a := by
          rw [← hL]; exact List.indexOf_append_of_mem hapre
        rw [this, hidx]
        exact List.indexOf_lt_length.mpr hapre
      refine ih (pre ++ [i]) (ks ++ [i]) ?_ ?_ ?_
      · rw [← hL]; simp
      · intro x
        simp only [List.mem_append, List.mem_singleton, hmem x]
      · rw [List.pairwise_append]
        refine ⟨hp, List.pairwise_singleton _ _, ?_⟩
        intro a ha b hb
        rw [List.mem_singleton.mp hb]
        exact hlt a ha

theorem lookupScore_rrfAcc_aux (k : ℕ) (id : String) :
    ∀ (results_lists : List (List String)), (∀ l ∈ results_lists, l.Nodup) →
      ∀ (acc : List (String × ℚ)),
        lookupScore (results_lists.foldl (fun acc l => rrfFoldFrom k 0 l acc) acc) id =
          lookupScore acc id + specScore results_lists k id := by
  intro results_lists
  induction results_lists with
  | nil => intro _ acc; simp [specScore]
  | cons l ls ih =>
    intro hnd acc
    rw [List.foldl_cons, ih (fun l' hl' => hnd l' (List.mem_cons_of_mem l hl')),
      lookupScore_rrfFoldFrom k id l (hnd l (List.mem_cons_self l ls))]
    unfold specScore
    rw [List.map_cons, List.sum_cons]
    push_cast
    by_cases hm : id ∈ l
    · simp only [hm, if_pos, if_true]
      ring
    · simp [hm]

/-- The fused score of every id equals the specification's formula, when
each input list is duplicate-free (a ranked list). -/
theorem lookupScore_rrfAcc (results_lists : List (List String)) (k : ℕ)
    (hnd : ∀ l ∈ results_lists, l.Nodup) (id : String) :
    lookupScore (rrfAcc results_lists k) id = specScore results_lists k id := by
  rw [rrfAcc_eq_foldl, lookupScore_rrfAcc_aux k id results_lists hnd []]
  simp [lookupScore]

theorem keys_rrfAcc_aux (k : ℕ) :
    ∀ (results_lists : List (List String)) (acc : List (String × ℚ)),
      (results_lists.foldl (fun acc l => rrfFoldFrom k 0 l acc) acc).map Prod.fst =
        keysAfter (acc.map Prod.fst) results_lists.flatten := by
  intro results_lists
  induction results_lists with
  | nil => intro acc; rfl
  | cons l ls ih =>
    intro acc
    rw [List.foldl_cons, ih, keys_rrfFoldFrom, List.flatten_cons, keysAfter_append]

/-- The keys of the fused accumulator are the input ids in order of
first occurrence. -/
theorem keys_rrfAcc (results_lists : List (List String)) (k : ℕ) :
    (rrfAcc results_lists k).map Prod.fst =
      keysAfter [] results_lists.flatten := by
  rw [rrfAcc_eq_foldl, keys_rrfAcc_aux]
  rfl

section StableSort

variable {α : Type*} (r : α → α → Prop) [DecidableRel r]

/-- Inserting `x` into a sorted list `s` with `orderedInsert` keeps every
`P`-pairwise guarantee, when `P` follows both from strict `r`-precedence
and from `r`-precedence plus the original-order relation `Q`.  This is
the stability argument for insertion sort. -/
theorem orderedInsert_pairwise_stable [IsTotal α r] [IsTrans α r]
    {P Q : α → α → Prop}
    (hstrict : ∀ a b, r a b → ¬ r b a → P a b)
    (htie : ∀ a b, r a b → Q a b → P a b) :
    ∀ (s : List α) (x : α), s.Sorted r → s.Pairwise P →
      (∀ b ∈ s, Q x b) → (s.orderedInsert r x).Pairwise P := by
  intro s
  induction s with
  | nil => intro x _ _ _; simp
  | cons b s ih =>
    intro x hsort hpair hq
    rw [List.orderedInsert]
    by_cases hrb : r x b
    · rw [if_pos hrb]
      refine List.pairwise_cons.mpr ⟨?_, hpair⟩
      intro c hc
      have hrc : r x c := by
        rcases List.mem_cons.mp hc with rfl | hc'
        · exact hrb
        · exact Trans.trans hrb (List.rel_of_sorted_cons hsort c hc')
      exact htie x c hrc (hq c hc)
    · rw [if_neg hrb]
      refine List.pairwise_cons.mpr ⟨?_, ?_⟩
      · intro c hc
        rcases (List.mem_orderedInsert r).mp hc with rfl | hc'
        · have hbx : r b c := (IsTotal.total (r := r) c b).resolve_left hrb
          exact hstrict b c hbx hrb
        · exact (List.pairwise_cons.mp hpair).1 c hc'
      · exact ih x hsort.of_cons (List.pairwise_cons.mp hpair).2
          (fun c hc => hq c (List.mem_cons_of_mem b hc))

/-- Stability of `insertionSort`: if the input is `Q`-pairwise then the
output is `P`-pairwise, where ties (in `r`) fall back to `Q`. -/
theorem insertionSort_pairwise_stable [IsTotal α r] [IsTrans α r]
    {P Q : α → α → Prop}
    (hstrict : ∀ a b, r a b → ¬ r b a → P a b)
    (htie : ∀ a b, r a b → Q a b → P a b) :
    ∀ (l : List α), l.Pairwise Q → (l.insertionSort r).Pairwise P := by
  intro l
  induction l with
  | nil => intro _; simp
  | cons x l ih =>
    intro hq
    rw [List.insertionSort]
    refine orderedInsert_pairwise_stable r hstrict htie _ x
      (List.sorted_insertionSort r l) (ih (List.pairwise_cons.mp hq).2) ?_
    intro b hb
    exact (List.pairwise_cons.mp hq).1 b ((List.mem_insertionSort r).mp hb)

end StableSort

theorem lookupScore_eq_of_mem :
    ∀ {l : List (String × ℚ)} (p : String × ℚ), p ∈ l →
      (l.map Prod.fst).Nodup → lookupScore l p.1 = p.2 := by
  intro l
  induction l with
  | nil => intro p hp _; exact absurd hp (List.not_mem_nil p)
  | cons q l ih =>
    intro p hp hnd
    rcases List.mem_cons.mp hp with rfl | hp'
    · simp [lookupScore]
    · have hne : ¬ q.1 = p.1 := by
        intro he
        have : p.1 ∈ l.map Prod.fst := List.mem_map.mpr ⟨p, hp', rfl⟩
        rw [List.map_cons, List.nodup_cons] at hnd
        exact hnd.1 (he ▸ this)
      simp only [lookupScore, if_neg hne]
      rw [List.map_cons, List.nodup_cons] at hnd
      exact ih p hp' hnd.2

theorem lookupScore_eq_of_perm {l l' : List (String × ℚ)} (hperm : l.Perm l')
    (hnd : (l.map Prod.fst).Nodup) (id : String) :
    lookupScore l id = lookupScore l' id := by
  have hnd' : (l'.map Prod.fst).Nodup := ((hperm.map Prod.fst).nodup_iff).mp hnd
  by_cases hm : id ∈ l.map Prod.fst
  · obtain ⟨p, hp, hfst⟩ := List.exists_of_mem_map hm
    have hp' : p ∈ l' := hperm.mem_iff.mp hp
    rw [← hfst, lookupScore_eq_of_mem p hp hnd, lookupScore_eq_of_mem p hp' hnd']
  · have hm' : id ∉ l'.map Prod.fst := fun h =>
      hm (((hperm.map Prod.fst).mem_iff).mpr h)
    rw [lookupScore_eq_zero_of_not_mem hm, lookupScore_eq_zero_of_not_mem hm']

/-- C6.  Reciprocal rank fusion with `k = 60`, over ranked (duplicate-free)
id lists: every id's fused score is the sum over lists of `1/(k + r + 1)`
at its zero-based rank `r` (0 from lists not containing it); the output
keys are exactly the union of ids seen in any input list, without
duplicates; the output is ordered by score descending, with ties broken
by stable input order (order of first occurrence across the input lists);
`fuse([[a]], 60)` maps `a` to `1/61`; and
`fuse([[a,b,c],[b,c,d]], 60)` ranks `b` and `c` above `a` and `d`. -/
theorem rrf_fusion_correct (results_lists : List (List String))
    (hnd : ∀ l ∈ results_lists, l.Nodup) :
    (∀ id, lookupScore (reciprocalRankFusion results_lists 60) id =
        specScore results_lists 60 id)
    ∧ (∀ id, id ∈ (reciprocalRankFusion results_lists 60).map Prod.fst ↔
        id ∈ results_lists.flatten)
    ∧ ((reciprocalRankFusion results_lists 60).map Prod.fst).Nodup
    ∧ (reciprocalRankFusion results_lists 60).Sorted scoreGE
    ∧ (reciprocalRankFusion results_lists 60).Pairwise
        (fun a b => b.2 < a.2 ∨ (a.2 = b.2 ∧
          results_lists.flatten.indexOf a.1 < results_lists.flatten.indexOf b.1))
    ∧ reciprocalRankFusion [["a"]] 60 = [("a", 1/61)]
    ∧ (reciprocalRankFusion [["a","b","c"],["b","c","d"]] 60).map Prod.fst
        = ["b", "c", "a", "d"] := by
  have hperm : (reciprocalRankFusion results_lists 60).Perm
      (rrfAcc results_lists 60) :=
    List.perm_insertionSort scoreGE _
  have hkeys := keys_rrfAcc results_lists 60
  have hnd_acc : ((rrfAcc results_lists 60).map Prod.fst).Nodup := by
    rw [hkeys]; exact nodup_keysAfter _ [] List.nodup_nil
  have hnd_out : ((reciprocalRankFusion results_lists 60).map Prod.fst).Nodup :=
    ((hperm.map Prod.fst).nodup_iff).mpr hnd_acc
  refine ⟨?_, ?_, hnd_out, ?_, ?_, ?_, ?_⟩
  · intro id
    rw [lookupScore_eq_of_perm hperm hnd_out id]
    exact lookupScore_rrfAcc results_lists 60 hnd id
  · intro id
    rw [(hperm.map Prod.fst).mem_iff, hkeys, mem_keysAfter]
    simp
  · exact List.sorted_insertionSort scoreGE _
  · apply insertionSort_pairwise_stable scoreGE
      (P := fun a b => b.2 < a.2 ∨ (a.2 = b.2 ∧
        results_lists.flatten.indexOf a.1 < results_lists.flatten.indexOf b.1))
      (Q := fun a b =>
        results_lists.flatten.indexOf a.1 < results_lists.flatten.indexOf b.1)
    · intro a b hab hba
      exact Or.inl (lt_of_not_le hba)
    · intro a b hab hq
      rcases lt_or_eq_of_le hab with h | h
      · exact Or.inl h
      · exact Or.inr ⟨h.symm, hq⟩
    · have hpw : (List.map Prod.fst (rrfAcc results_lists 60)).Pairwise
          (fun x y => results_lists.flatten.indexOf x <
            results_lists.flatten.indexOf y) := by
        rw [hkeys]
        exact pairwise_keysAfter results_lists.flatten results_lists.flatten [] []
          rfl (by simp) List.Pairwise.nil
      have h2 := List.pairwise_map.mp hpw
      exact h2
  · norm_num +decide [reciprocalRankFusion, rrfAcc, upsert, List.enum,
      List.enumFrom, List.insertionSort, List.orderedInsert, scoreGE]
  · norm_num +decide [reciprocalRankFusion, rrfAcc, upsert, List.enum,
      List.enumFrom, List.insertionSort, List.orderedInsert, scoreGE]

/-- Witness for C6 at a concrete pair of ranked lists. -/
theorem rrf_fusion_correct_witness :
    (∀ l ∈ ([["a", "b", "c"], ["b", "c", "d"]] : List (List String)), l.Nodup)
    ∧ lookupScore (reciprocalRankFusion [["a", "b", "c"], ["b", "c", "d"]] 60) "b"
        = specScore [["a", "b", "c"], ["b", "c", "d"]] 60 "b" :=
  ⟨by decide,
    (rrf_fusion_correct [["a", "b", "c"], ["b", "c", "d"]] (by decide)).1 "b"⟩

/-! ### The query orchestrator (src/service/query_service.py, process_query)

`process_query` is embedded as a function of an environment of external
services (embedding + vector store, Redis/BM25, the re-rank task, the
generative model).  Each external call that the Python code does *not*
wrap in a `try` is modelled in `Except`, so that its failure propagates;
the one `try/except` block of the source — around query expansion,
query-embedding and the initial vector search — is modelled by matching
on `Env.vectorSearch` and converting its error into the fixed message.
`_perform_expansion` catches its own exceptions and falls back to the
original query, so expansion is total. -/

/-- The metadata record stored with each chunk (the `metadatas` entries
of the vector store). -/
structure ChunkMeta where
  document_id : String
  file_name : String
  page_number : String
  absolute_text : String
deriving DecidableEq, Repr

/-- `QueryResponse(answer, sources)`; the orchestrator builds each source
from the corresponding final chunk's metadata. -/
structure QueryResponse where
  answer : String
  sources : List ChunkMeta
deriving DecidableEq, Repr

/-- The aligned id/distance lists of `collection.query` (the `[0]` inner
lists of the Chroma result). -/
structure VectorResults where
  ids : List String
  distances : List ℚ

/-- The fixed per-stage messages of `process_query`. -/
def errSearchMsg : String := "An error occurred while searching the document database."

def noInfoMsg : String :=
  "I couldn\u0027t find any information in the documents for your question."

def notRelevantMsg : String :=
  "I could not find any information that was sufficiently relevant to your query."

def noCandidatesMsg : String :=
  "Could not find any relevant documents after a detailed search."

def noneRelevantMsg : String :=
  "Found potential documents, but none were relevant enough to form an answer."

/-- The external services consumed by one run of `process_query`.
`vectorSearch` stands for the whole guarded step 1 (expansion, query
embedding, `get_collection`, `collection.query`); every other field is
an unguarded external call. -/
structure Env where
  vectorSearch : Except String VectorResults
  getMeta : List String → Except String (List ChunkMeta)
  bm25 : Except String (Option (List (List String)))
  caseDocs : Except String (List String)
  scoreFn : String → ℚ
  rerank : List ChunkMeta → Except String (List ChunkMeta)
  generate : String → Except String String

/-- `rank_bm25`'s `get_top_n(query, documents, n)`: it returns the `n`
top-scoring members of the `documents` argument it is handed (modelled
from the library's contract, with the index's per-document scores for
the query abstracted into `score`). -/
def getTopN (score : String → ℚ) (documents : List String) (n : ℕ) : List String :=
  (documents.insertionSort (fun a b => score a ≥ score b)).take n

/-- The deep-dive keyword retrieval: fetch the BM25 index, and when it is
present score `collection.get(where=case)['documents']` — the raw chunk
texts, not chunk ids — taking the top 10. -/
def keywordDocIds (env : Env) : Except String (List String) := do
  let bm25opt ← env.bm25
  match bm25opt with
  | some _ => do
      let docs ← env.caseDocs
      pure (getTopN env.scoreFn docs 10)
  | none => pure []

/-- `list(fused_results.keys())[:25]` over the fusion of the vector id
list with the keyword result list. -/
def topFusedIds (vector_doc_ids keyword_doc_ids : List String) : List String :=
  ((reciprocalRankFusion [vector_doc_ids, keyword_doc_ids] 60).map Prod.fst).take 25

/-- Step 4 of `process_query`: empty final chunks short-circuit,
otherwise the generative call produces the answer and the sources are the
final chunks' metadata. -/
def synthesize (env : Env) (final_chunks : List ChunkMeta) :
    Except String QueryResponse :=
  if final_chunks.isEmpty then .ok ⟨noneRelevantMsg, []⟩
  else do
    let ans ← env.generate
      (String.intercalate "\n\n---\n\n" (final_chunks.map (fun c => c.absolute_text)))
    pure ⟨ans, final_chunks⟩

/-- `process_query(case_id, query)` over the environment.  A `.error`
result models an uncaught Python exception reaching the caller. -/
def processQuery (env : Env) : Except String QueryResponse :=
  match env.vectorSearch with
  | .error _ => .ok ⟨errSearchMsg, []⟩
  | .ok vr =>
    if vr.ids.isEmpty then .ok ⟨noInfoMsg, []⟩
    else
      match gateRoute (vr.distances.headD 0) with
      | Route.fastExit => do
          let metas ← env.getMeta (vr.ids.take 3)
          synthesize env metas
      | Route.missExit => .ok ⟨notRelevantMsg, []⟩
      | Route.deepDive => do
          let keyword_doc_ids ← keywordDocIds env
          let ids := topFusedIds vr.ids keyword_doc_ids
          if ids.isEmpty then pure ⟨noCandidatesMsg, []⟩
          else do
            let candidates ← env.getMeta ids
            let finals ← env.rerank candidates
            synthesize env finals

/-- C1 (counterexample).  A best distance exactly at `MISS_THRESHOLD`
does not take the miss exit: the gate's miss test is strict
(`elif top_document_distance > MISS_THRESHOLD`), so a distance equal to
the threshold enters the deep dive. -/
theorem gate_miss_boundary_counterexample :
    gateRoute MISS_THRESHOLD = Route.deepDive
    ∧ gateRoute MISS_THRESHOLD ≠ Route.missExit := by
  constructor
  · norm_num [gateRoute, SLAM_DUNK_THRESHOLD, MISS_THRESHOLD]
  · norm_num [gateRoute, SLAM_DUNK_THRESHOLD, MISS_THRESHOLD]
    decide

/-- C1 (amended).  The confidence gate routes: `d ≤ SLAM_DUNK_THRESHOLD`
takes the fast exit (boundary inclusive); `d > MISS_THRESHOLD` takes the
miss exit (boundary exclusive — at exactly `MISS_THRESHOLD` the deep
dive is entered); `SLAM_DUNK_THRESHOLD < d ≤ MISS_THRESHOLD` always
enters the deep dive. -/
theorem gate_amended (d : ℚ) :
    (d ≤ SLAM_DUNK_THRESHOLD → gateRoute d = Route.fastExit)
    ∧ (MISS_THRESHOLD < d → gateRoute d = Route.missExit)
    ∧ (SLAM_DUNK_THRESHOLD < d → d ≤ MISS_THRESHOLD →
        gateRoute d = Route.deepDive) := by
  refine ⟨fun h => ?_, fun h => ?_, fun h1 h2 => ?_⟩
  · rw [gateRoute, if_pos h]
  · rw [gateRoute, if_neg ?_, if_pos h]
    have hlt : SLAM_DUNK_THRESHOLD < MISS_THRESHOLD := by
      norm_num [SLAM_DUNK_THRESHOLD, MISS_THRESHOLD]
    push_neg
    linarith
  · rw [gateRoute, if_neg (by linarith), if_neg (by push_neg; linarith)]

/-- Witness for C1 (amended) at the three representative distances. -/
theorem gate_amended_witness :
    ((0.4 : ℚ) ≤ SLAM_DUNK_THRESHOLD ∧ gateRoute 0.4 = Route.fastExit)
    ∧ (MISS_THRESHOLD < (1 : ℚ) ∧ gateRoute 1 = Route.missExit)
    ∧ (SLAM_DUNK_THRESHOLD < (0.9 : ℚ) ∧ (0.9 : ℚ) ≤ MISS_THRESHOLD
        ∧ gateRoute 0.9 = Route.deepDive) :=
  ⟨⟨by norm_num [SLAM_DUNK_THRESHOLD],
      (gate_amended 0.4).1 (by norm_num [SLAM_DUNK_THRESHOLD])⟩,
    ⟨by norm_num [MISS_THRESHOLD], (gate_amended 1).2.1 (by norm_num [MISS_THRESHOLD])⟩,
    ⟨by norm_num [SLAM_DUNK_THRESHOLD], by norm_num [MISS_THRESHOLD],
      (gate_amended 0.9).2.2 (by norm_num [SLAM_DUNK_THRESHOLD])
        (by norm_num [MISS_THRESHOLD])⟩⟩

/-- A chunk metadata record used in concrete runs. -/
def metaA : ChunkMeta := ⟨"doc1", "f.pdf", "1", "text one"⟩

/-- An environment in which every external call succeeds except the
final generative call (`rag_chain.invoke`), which raises. -/
def envSynthRaises : Env :=
  { vectorSearch := .ok ⟨["id1"], [0.3]⟩
    getMeta := fun _ => .ok [metaA]
    bm25 := .ok none
    caseDocs := .ok []
    scoreFn := fun _ => 0
    rerank := fun cs => .ok cs
    generate := fun _ => .error "generation failed" }

/-- C2 (counterexample).  `process_query` is not exception-free: an
exception raised during final answer synthesis (which the source does
not wrap in any `try`) propagates to the caller instead of being
converted into a structured response. -/
theorem process_query_can_raise :
    processQuery envSynthRaises = .error "generation failed" := by
  norm_num [processQuery, envSynthRaises, gateRoute, SLAM_DUNK_THRESHOLD,
    MISS_THRESHOLD, synthesize, metaA, Bind.bind, Except.bind]

/-- C2 (amended).  Only the initial stage — query expansion, query
embedding and the vector search, the one block the source wraps in
`try/except` — is converted into the fixed user-facing message with an
empty source list; exceptions in the later stages (fast-path metadata
fetch, keyword-index fetch, candidate fetch, re-rank retrieval,
synthesis) propagate. -/
theorem process_query_guarded_stage (env : Env) (e : String)
    (h : env.vectorSearch = .error e) :
    processQuery env = .ok ⟨errSearchMsg, []⟩ := by
  simp [processQuery, h]

/-- An environment whose initial vector-search stage raises. -/
def envSearchRaises : Env :=
  { vectorSearch := .error "connection refused"
    getMeta := fun _ => .ok []
    bm25 := .ok none
    caseDocs := .ok []
    scoreFn := fun _ => 0
    rerank := fun cs => .ok cs
    generate := fun _ => .ok "answer" }

/-- Witness for C2 (amended) at a concrete failing environment. -/
theorem process_query_guarded_stage_witness :
    envSearchRaises.vectorSearch = .error "connection refused"
    ∧ processQuery envSearchRaises = .ok ⟨errSearchMsg, []⟩ :=
  ⟨rfl, process_query_guarded_stage envSearchRaises "connection refused" rfl⟩

/-- The ids under which the (single) chunk of the concrete case is
stored in the vector store. -/
def storeIds : List String := ["id1"]

/-- The raw chunk texts of the same store. -/
def storeTexts : List String := ["hello world"]

/-- A deep-dive environment over that store: ambiguous best distance,
BM25 index present. -/
def envDeepDive : Env :=
  { vectorSearch := .ok ⟨storeIds, [0.5]⟩
    getMeta := fun _ => .ok []
    bm25 := .ok (some [["hello", "world"]])
    caseDocs := .ok storeTexts
    scoreFn := fun _ => 0
    rerank := fun cs => .ok cs
    generate := fun _ => .ok "answer" }

/-- C3.  The deep-dive keyword search feeds `get_top_n` the case's raw
chunk *texts* (`collection.get(...)['documents']`), not chunk ids, so
the fused top-25 list contains a raw text ("hello world") that is not a
resolvable chunk id of the vector store (`storeIds`): rank fusion is
applied to two lists from different id spaces, violating the claimed
invariant. -/
theorem keyword_results_are_texts_not_ids :
    keywordDocIds envDeepDive = .ok ["hello world"]
    ∧ topFusedIds storeIds ["hello world"] = ["id1", "hello world"]
    ∧ "hello world" ∈ topFusedIds storeIds ["hello world"]
    ∧ "hello world" ∉ storeIds := by
  refine ⟨?_, ?_, ?_, by decide⟩
  · norm_num [keywordDocIds, envDeepDive, getTopN, storeTexts, Bind.bind, Except.bind,
      Pure.pure, Except.pure, List.insertionSort, List.orderedInsert]
  · norm_num +decide [topFusedIds, storeIds, reciprocalRankFusion, rrfAcc, upsert,
      List.enum, List.enumFrom, List.insertionSort, List.orderedInsert, scoreGE]
  · norm_num +decide [topFusedIds, storeIds, reciprocalRankFusion, rrfAcc, upsert,
      List.enum, List.enumFrom, List.insertionSort, List.orderedInsert, scoreGE]

/-! ### The BM25 keyword-index cache (src/service/query_service.py,
_get_bm25_index_for_case)

The function is embedded as a pure function of the current cache entry
for the case and of the fetched corpus; its result is the pair (returned
value, cache write performed).  `BM25Okapi(tokenized_corpus)` is
represented by the tokenized corpus it is built from; what matters for
the cache claims is *which objects* are pickled into the one cache
value. -/

structure Bm25Index where
  corpus_tokens : List (List String)
deriving DecidableEq, Repr

/-- The shapes a pickled cache value could take: the source pickles the
bare index (`pickle.dumps(bm25)`); the specification describes a pickled
`(index, corpus_texts, corpus_ids)` triple. -/
inductive CachePayload where
  | indexOnly (index : Bm25Index)
  | triple (index : Bm25Index) (corpus_texts : List String) (corpus_ids : List String)
deriving DecidableEq, Repr

def isTriplePayload : CachePayload → Bool
  | CachePayload.triple _ _ _ => true
  | _ => false

/-- `BM25Okapi([doc.split(" ") for doc in corpus])`. -/
def buildBM25 (corpus : List String) : Bm25Index :=
  ⟨corpus.map (fun doc => doc.splitOn " ")⟩

/-- `_get_bm25_index_for_case`: on a hit, deserialize and return the
cached value, with no write; on a miss, build the index from the corpus
(returning `None` on an empty corpus), cache the pickled index with
`ex=3600`, and return it. -/
def getOrBuildBM25 (cached : Option CachePayload) (corpus : List String) :
    Option CachePayload × Option (CachePayload × ℕ) :=
  match cached with
  | some payload => (some payload, none)
  | none =>
    if corpus.isEmpty then (none, none)
    else
      (some (CachePayload.indexOnly (buildBM25 corpus)),
        some (CachePayload.indexOnly (buildBM25 corpus), 3600))

/-- C7 (counterexample).  On a cache miss over the non-empty corpus
`["hello world"]`, the value written is the pickled index alone — not a
`(index, corpus_texts, corpus_ids)` triple; in particular it differs
from the triple the claim describes (the corpus ids are never even
fetched by the function). -/
theorem bm25_cache_not_triple_counterexample :
    (getOrBuildBM25 none ["hello world"]).2 =
      some (CachePayload.indexOnly (buildBM25 ["hello world"]), 3600)
    ∧ ((getOrBuildBM25 none ["hello world"]).2.map (fun e => isTriplePayload e.1))
        = some false
    ∧ (getOrBuildBM25 none ["hello world"]).2 ≠
      some (CachePayload.triple (buildBM25 ["hello world"]) ["hello world"] ["id1"],
        3600) := by
  refine ⟨rfl, rfl, ?_⟩
  simp [getOrBuildBM25, buildBM25]

/-- C7 (amended).  On a miss with a non-empty corpus the function caches
exactly one value — the serialized BM25 index by itself — with TTL 3600
seconds, and returns that index; a subsequent hit deserializes and
returns the same cached value unchanged, performing no write.  Corpus
texts and corpus-id alignment are not part of the cached value. -/
theorem bm25_cache_amended (corpus : List String) (h : ¬ corpus.isEmpty = true) :
    (getOrBuildBM25 none corpus).2 =
      some (CachePayload.indexOnly (buildBM25 corpus), 3600)
    ∧ (getOrBuildBM25 none corpus).1 = some (CachePayload.indexOnly (buildBM25 corpus))
    ∧ (getOrBuildBM25 (some (CachePayload.indexOnly (buildBM25 corpus))) corpus).1
        = some (CachePayload.indexOnly (buildBM25 corpus))
    ∧ (getOrBuildBM25 (some (CachePayload.indexOnly (buildBM25 corpus))) corpus).2
        = none := by
  simp [getOrBuildBM25, h]

/-- Witness for C7 (amended) at the concrete corpus `["hello world"]`. -/
theorem bm25_cache_amended_witness :
    ¬ (["hello world"] : List String).isEmpty = true
    ∧ (getOrBuildBM25 none ["hello world"]).2 =
        some (CachePayload.indexOnly (buildBM25 ["hello world"]), 3600) :=
  ⟨by decide, (bm25_cache_amended ["hello world"] (by decide)).1⟩

/-! ### Batch fan-out / fan-in (src/tasks.py)

`prepare_and_process_document` dispatches one `embed_and_store_batch`
per batch and registers `mark_document_as_completed` as the chord
callback.  `embed_and_store_batch` re-raises its exceptions, so a unit's
outcome is a success bit.  The chord barrier itself is the task
substrate's (celery's) semantics, outside src/, and is modelled from the
spec; the callback's body is embedded from the source. -/

inductive DocStatus where
  | PENDING
  | PROCESSING
  | COMPLETED
  | FAILED
deriving DecidableEq, Repr

structure DocRecord where
  status : DocStatus
  status_message : String
  processed_at : Option ℕ
deriving DecidableEq, Repr

def completedMsg : String := "Successfully indexed for searching."

/-- The body of `mark_document_as_completed` (src/tasks.py): set the
terminal status, the success message, and the processed timestamp. -/
def markDocumentAsCompleted (t : ℕ) (doc : DocRecord) : DocRecord :=
  { doc with
    status := DocStatus.COMPLETED
    status_message := completedMsg
    processed_at := some t }

/-- Modelled from the spec: the task substrate's chord barrier (celery's
`chord`, not part of src/) — the registered callback runs exactly once,
and only if every unit in the group succeeded; a failed unit (one that
re-raised) suppresses the callback.  The result is the final document
record together with the number of callback invocations. -/
def runChord (unit_results : List Bool) (t : ℕ) (doc : DocRecord) :
    DocRecord × ℕ :=
  if unit_results.all (fun b => b) then (markDocumentAsCompleted t doc, 1)
  else (doc, 0)

/-- C4.  For a fan-out group over a PROCESSING document: if all units
succeed the callback fires exactly once and the document ends COMPLETED
with the success message and a processed timestamp; if at least one unit
fails the callback never fires and the document never reaches
COMPLETED. -/
theorem chord_fan_in_exactly_once (unit_results : List Bool) (t : ℕ)
    (doc : DocRecord) (hproc : doc.status = DocStatus.PROCESSING) :
    (unit_results.all (fun b => b) = true →
      (runChord unit_results t doc).2 = 1
      ∧ (runChord unit_results t doc).1.status = DocStatus.COMPLETED
      ∧ (runChord unit_results t doc).1.status_message = completedMsg
      ∧ (runChord unit_results t doc).1.processed_at = some t)
    ∧ ((∃ r ∈ unit_results, r = false) →
      (runChord unit_results t doc).2 = 0
      ∧ (runChord unit_results t doc).1.status ≠ DocStatus.COMPLETED) := by
  constructor
  · intro h
    simp [runChord, h, markDocumentAsCompleted, completedMsg]
  · rintro ⟨r, hr, rfl⟩
    have hall : ¬ unit_results.all (fun b => b) = true := by
      simp only [List.all_eq_true]
      intro hforall
      exact Bool.false_ne_true (hforall false hr)
    rw [runChord, if_neg hall]
    refine ⟨rfl, ?_⟩
    rw [hproc]
    decide

/-- A PROCESSING document used by the C4 witness. -/
def docW : DocRecord := ⟨DocStatus.PROCESSING, "Step 2/3: embedding", none⟩

/-- Witness for C4 at concrete unit outcomes (all-success and
one-failure). -/
theorem chord_fan_in_exactly_once_witness :
    docW.status = DocStatus.PROCESSING
    ∧ ((runChord [true, true] 5 docW).2 = 1
        ∧ (runChord [true, true] 5 docW).1.status = DocStatus.COMPLETED
        ∧ (runChord [true, true] 5 docW).1.status_message = completedMsg
        ∧ (runChord [true, true] 5 docW).1.processed_at = some 5)
    ∧ ((runChord [true, false] 5 docW).2 = 0
        ∧ (runChord [true, false] 5 docW).1.status ≠ DocStatus.COMPLETED) :=
  ⟨rfl,
    (chord_fan_in_exactly_once [true, true] 5 docW rfl).1 (by decide),
    (chord_fan_in_exactly_once [true, false] 5 docW rfl).2
      ⟨false, by decide, rfl⟩⟩

/-! ### The hybrid chunk packer (src/tasks.py, prepare_and_process_document)

Texts are `List Char` (Python string slicing and lengths are positional).
A segment is an `unstructured` element after `clean(..., extra_whitespace
=True)`, paired with its page locator; `page : Option ℕ` models
`el.metadata.page_number or "N/A"` — `none` is the `"N/A"` string.
`pyMinPage` embeds `sorted(list(page_set))[0]`: Python's `sorted` raises
`TypeError` on a list mixing ints with the `"N/A"` string (any mixed
list forces at least one cross-type comparison), indexes out of an empty
list raise, a singleton sorts without comparisons, and otherwise the
head of the ascending sort is the minimum.  The oversized-segment
splitter (`RecursiveCharacterTextSplitter(chunk_size=1000,
chunk_overlap=150)`, a library call) is modelled from the spec (§4.1):
a fixed-size sliding window of width `T` advancing by `T - O`, so
consecutive slices share an overlap of `O` characters. -/

def targetChunkSize : ℕ := 1000

def chunkOverlap : ℕ := 150

/-- The blank-line separator of `current_chunk_text += f"\n\n{...}"`. -/
def sep : List Char := ['\n', '\n']

structure Segment where
  text : List Char
  page : Option ℕ
deriving DecidableEq, Repr

structure Chunk where
  text : List Char
  page_number : Option ℕ
  file_name : String
deriving DecidableEq, Repr

/-- The accumulator (`current_chunk_text`, `current_chunk_page_numbers`);
the Python set is a duplicate-free list. -/
structure PackAcc where
  text : List Char
  pages : List (Option ℕ)
deriving DecidableEq, Repr

def emptyAcc : PackAcc := ⟨[], []⟩

/-- `sorted(list(pages))[0]` under Python semantics (see section
comment). -/
def pyMinPage : List (Option ℕ) → Except Unit (Option ℕ)
  | [] => .error ()
  | [x] => .ok x
  | ps =>
    if ps.any (fun p => p.isNone) then
      if ps.any (fun p => p.isSome) then .error ()
      else .ok none
    else
      match ps.filterMap id with
      | [] => .ok none
      | n :: rest => .ok (some (rest.foldl min n))

/-- `page_set.add(p)` on the duplicate-free list model. -/
def insertPage (ps : List (Option ℕ)) (p : Option ℕ) : List (Option ℕ) :=
  if p ∈ ps then ps else ps ++ [p]

/-- Modelled from the spec (§4.1): the oversized-segment splitter as a
fixed-size sliding window of width `targetChunkSize` advancing by
`targetChunkSize - chunkOverlap`. -/
def slideSplit (text : List Char) : List (List Char) :=
  if text.length ≤ targetChunkSize then [text]
  else text.take targetChunkSize ::
    slideSplit (text.drop (targetChunkSize - chunkOverlap))
termination_by text.length
decreasing_by
  simp only [List.length_drop, targetChunkSize, chunkOverlap] at *
  omega

/-- Dropping the shared overlap from every slice after the first. -/
def tailJoin (cs : List (List Char)) : List Char :=
  (cs.map (fun s => s.drop chunkOverlap)).flatten

/-- The de-overlapped concatenation of a slice sequence. -/
def deoverlapJoin : List (List Char) → List Char
  | [] => []
  | c :: cs => c ++ tailJoin cs

/-- Flushing the accumulator unconditionally (rule 1 of the source):
the chunk's representative locator is the smallest page seen. -/
def flushAcc (file_name : String) (acc : PackAcc) : Except Unit (List Chunk) := do
  let page ← pyMinPage acc.pages
  pure [⟨acc.text, page, file_name⟩]

/-- Flushing guarded by `if current_chunk_text:` (rule 2 and the final
flush of the source). -/
def flushAccIfNonempty (file_name : String) (acc : PackAcc) :
    Except Unit (List Chunk) :=
  if acc.text.isEmpty then pure [] else flushAcc file_name acc

/-- The slice chunks emitted for one oversized segment. -/
def sliceChunks (file_name : String) (seg : Segment) : List Chunk :=
  (slideSplit seg.text).map (fun s => ⟨s, seg.page, file_name⟩)

/-- One iteration of the packing loop over one segment. -/
def packStep (file_name : String) (acc : PackAcc) (seg : Segment) :
    Except Unit (List Chunk × PackAcc) :=
  if targetChunkSize < seg.text.length then do
    let flushed ← flushAccIfNonempty file_name acc
    pure (flushed ++ sliceChunks file_name seg, emptyAcc)
  else if targetChunkSize < acc.text.length + seg.text.length then do
    let flushed ← flushAcc file_name acc
    pure (flushed, ⟨seg.text, [seg.page]⟩)
  else
    pure ([], ⟨acc.text ++ sep ++ seg.text, insertPage acc.pages seg.page⟩)

def packLoop (file_name : String) :
    List Segment → PackAcc → Except Unit (List Chunk × PackAcc)
  | [], acc => pure ([], acc)
  | seg :: rest, acc => do
      let (cs, acc1) ← packStep file_name acc seg
      let (cs2, acc2) ← packLoop file_name rest acc1
      pure (cs ++ cs2, acc2)

/-- The whole hybrid chunking pass: the loop over all segments followed
by the final guarded flush. -/
def packSegments (file_name : String) (segs : List Segment) :
    Except Unit (List Chunk) := do
  let (chunks, acc) ← packLoop file_name segs emptyAcc
  let fl ← flushAccIfNonempty file_name acc
  pure (chunks ++ fl)

theorem take_drop_append {α : Type*} (l : List α) (m n : ℕ) :
    (l.take (m + n)).drop m ++ l.drop (m + n) = l.drop m := by
  rw [← List.take_drop, List.drop_take_append_drop]

theorem slideSplit_sizes (t : List Char) :
    ∀ s ∈ slideSplit t, s.length ≤ targetChunkSize := by
  induction t using slideSplit.induct with
  | case1 t h =>
    rw [slideSplit, if_pos h]
    intro s hs
    rw [List.mem_singleton.mp hs]
    exact h
  | case2 t h ih =>
    rw [slideSplit, if_neg h]
    intro s hs
    rcases List.mem_cons.mp hs with rfl | hs'
    · simp
    · exact ih s hs'

theorem tailJoin_slideSplit (t : List Char) :
    tailJoin (slideSplit t) = t.drop chunkOverlap := by
  induction t using slideSplit.induct with
  | case1 t h =>
    rw [slideSplit, if_pos h]
    simp [tailJoin]
  | case2 t h ih =>
    rw [slideSplit, if_neg h]
    show (t.take targetChunkSize).drop chunkOverlap ++
      tailJoin (slideSplit (t.drop (targetChunkSize - chunkOverlap))) =
        t.drop chunkOverlap
    rw [ih]
    norm_num [targetChunkSize, chunkOverlap]
    simpa using take_drop_append t 150 850

/-- De-overlapping the sliding-window slices reconstructs the original
text. -/
theorem deoverlapJoin_slideSplit (t : List Char) :
    deoverlapJoin (slideSplit t) = t := by
  by_cases h : t.length ≤ targetChunkSize
  · rw [slideSplit, if_pos h]
    simp [deoverlapJoin, tailJoin]
  · rw [slideSplit, if_neg h]
    show t.take targetChunkSize ++
      tailJoin (slideSplit (t.drop (targetChunkSize - chunkOverlap))) = t
    rw [tailJoin_slideSplit, List.drop_drop]
    norm_num [targetChunkSize, chunkOverlap]

theorem flushAcc_ok {fn : String} {acc : PackAcc} {cs : List Chunk}
    (hok : flushAcc fn acc = .ok cs) :
    ∃ page, pyMinPage acc.pages = .ok page ∧ cs = [⟨acc.text, page, fn⟩] := by
  unfold flushAcc at hok
  cases hpm : pyMinPage acc.pages with
  | error e => rw [hpm] at hok; exact absurd hok (by simp [Bind.bind, Except.bind])
  | ok page =>
    rw [hpm] at hok
    simp only [Bind.bind, Except.bind, Pure.pure, Except.pure, Except.ok.injEq] at hok
    exact ⟨page, rfl, hok.symm⟩

theorem flushAccIfNonempty_ok {fn : String} {acc : PackAcc} {cs : List Chunk}
    (hok : flushAccIfNonempty fn acc = .ok cs) :
    (acc.text = [] ∧ cs = [])
    ∨ (acc.text ≠ [] ∧
        ∃ page, pyMinPage acc.pages = .ok page ∧ cs = [⟨acc.text, page, fn⟩]) := by
  unfold flushAccIfNonempty at hok
  by_cases he : acc.text.isEmpty
  · rw [if_pos he] at hok
    simp only [Pure.pure, Except.pure, Except.ok.injEq] at hok
    exact Or.inl ⟨List.isEmpty_iff.mp he, hok.symm⟩
  · rw [if_neg he] at hok
    exact Or.inr ⟨fun h => he (by simp [h]), flushAcc_ok hok⟩

theorem packStep_ok_oversized {fn : String} {acc : PackAcc} {seg : Segment}
    {cs : List Chunk} {acc' : PackAcc}
    (h : targetChunkSize < seg.text.length)
    (hok : packStep fn acc seg = .ok (cs, acc')) :
    acc' = emptyAcc ∧
      ∃ flushed, flushAccIfNonempty fn acc = .ok flushed
        ∧ cs = flushed ++ sliceChunks fn seg := by
  rw [packStep, if_pos h] at hok
  cases hfl : flushAccIfNonempty fn acc with
  | error e => rw [hfl] at hok; exact absurd hok (by simp [Bind.bind, Except.bind])
  | ok flushed =>
    rw [hfl] at hok
    simp only [Bind.bind, Except.bind, Pure.pure, Except.pure, Except.ok.injEq,
      Prod.mk.injEq] at hok
    exact ⟨hok.2.symm, flushed, rfl, hok.1.symm⟩

theorem packStep_ok_flush {fn : String} {acc : PackAcc} {seg : Segment}
    {cs : List Chunk} {acc' : PackAcc}
    (h1 : ¬ targetChunkSize < seg.text.length)
    (h2 : targetChunkSize < acc.text.length + seg.text.length)
    (hok : packStep fn acc seg = .ok (cs, acc')) :
    acc' = ⟨seg.text, [seg.page]⟩ ∧
      ∃ page, pyMinPage acc.pages = .ok page ∧ cs = [⟨acc.text, page, fn⟩] := by
  rw [packStep, if_neg h1, if_pos h2] at hok
  cases hfl : flushAcc fn acc with
  | error e => rw [hfl] at hok; exact absurd hok (by simp [Bind.bind, Except.bind])
  | ok flushed =>
    rw [hfl] at hok
    simp only [Bind.bind, Except.bind, Pure.pure, Except.pure, Except.ok.injEq,
      Prod.mk.injEq] at hok
    obtain ⟨page, hpm, hcs⟩ := flushAcc_ok hfl
    exact ⟨hok.2.symm, page, hpm, hok.1 ▸ hcs⟩

theorem packStep_append {fn : String} (acc : PackAcc) (seg : Segment)
    (h1 : ¬ targetChunkSize < seg.text.length)
    (h2 : ¬ targetChunkSize < acc.text.length + seg.text.length) :
    packStep fn acc seg =
      .ok ([], ⟨acc.text ++ sep ++ seg.text, insertPage acc.pages seg.page⟩) := by
  rw [packStep, if_neg h1, if_neg h2]
  rfl

theorem packLoop_nil (fn : String) (acc : PackAcc) :
    packLoop fn [] acc = .ok ([], acc) := rfl

theorem packLoop_cons_ok {fn : String} {seg : Segment} {rest : List Segment}
    {acc : PackAcc} {cs : List Chunk} {acc₂ : PackAcc}
    (hok : packLoop fn (seg :: rest) acc = .ok (cs, acc₂)) :
    ∃ cs₁ acc₁ cs₂, packStep fn acc seg = .ok (cs₁, acc₁)
      ∧ packLoop fn rest acc₁ = .ok (cs₂, acc₂) ∧ cs = cs₁ ++ cs₂ := by
  rw [packLoop] at hok
  cases hstep : packStep fn acc seg with
  | error e => rw [hstep] at hok; exact absurd hok (by simp [Bind.bind, Except.bind])
  | ok p =>
    rw [hstep] at hok
    obtain ⟨cs₁, acc₁⟩ := p
    simp only [Bind.bind, Except.bind] at hok
    cases hloop : packLoop fn rest acc₁ with
    | error e =>
      rw [hloop] at hok
      exact absurd hok (by simp [Bind.bind, Except.bind])
    | ok q =>
      rw [hloop] at hok
      obtain ⟨cs₂, acc₂'⟩ := q
      simp only [Bind.bind, Except.bind, Pure.pure, Except.pure, Except.ok.injEq,
        Prod.mk.injEq] at hok
      exact ⟨cs₁, acc₁, cs₂, rfl, hok.2 ▸ hloop, hok.1.symm⟩

theorem packSegments_ok {fn : String} {segs : List Segment} {chunks : List Chunk}
    (hok : packSegments fn segs = .ok chunks) :
    ∃ cs acc fl, packLoop fn segs emptyAcc = .ok (cs, acc)
      ∧ flushAccIfNonempty fn acc = .ok fl ∧ chunks = cs ++ fl := by
  rw [packSegments] at hok
  cases hloop : packLoop fn segs emptyAcc with
  | error e => rw [hloop] at hok; exact absurd hok (by simp [Bind.bind, Except.bind])
  | ok p =>
    rw [hloop] at hok
    obtain ⟨cs, acc⟩ := p
    simp only [Bind.bind, Except.bind] at hok
    cases hfl : flushAccIfNonempty fn acc with
    | error e =>
      rw [hfl] at hok
      exact absurd hok (by simp [Bind.bind, Except.bind])
    | ok fl =>
      rw [hfl] at hok
      simp only [Bind.bind, Except.bind, Pure.pure, Except.pure,
        Except.ok.injEq] at hok
      exact ⟨cs, acc, fl, rfl, hfl, hok.symm⟩

/-- C8.  `sorted(list(page_set))[0]` crashes on a mixed page set: two
small segments, one with page 2 and one with no page number (the `"N/A"`
fallback), are grouped into one accumulator whose flush sorts
`{2, "N/A"}` — a `TypeError` in Python 3, so the task raises instead of
tagging the chunk; with homogeneous locators the flush does tag the
chunk with the smallest page seen (here page 1 out of `{2, 1}`). -/
theorem pack_mixed_pages_raises :
    packSegments "doc.pdf" [⟨['a'], some 2⟩, ⟨['b'], none⟩] = .error ()
    ∧ pyMinPage [some 2, none] = .error ()
    ∧ packSegments "doc.pdf" [⟨['a'], some 2⟩, ⟨['b'], some 1⟩]
        = .ok [⟨sep ++ ['a'] ++ sep ++ ['b'], some 1, "doc.pdf"⟩] :=
  ⟨rfl, rfl, rfl⟩

theorem packLoop_bound (fn : String) :
    ∀ (segs : List Segment) (acc : PackAcc) (chunks : List Chunk) (acc' : PackAcc),
      acc.text.length ≤ targetChunkSize + 2 →
      packLoop fn segs acc = .ok (chunks, acc') →
      (∀ c ∈ chunks, c.text.length ≤ targetChunkSize + 2)
      ∧ acc'.text.length ≤ targetChunkSize + 2 := by
  intro segs
  induction segs with
  | nil =>
    intro acc chunks acc' hb hok
    rw [packLoop_nil] at hok
    simp only [Except.ok.injEq, Prod.mk.injEq] at hok
    obtain ⟨rfl, rfl⟩ := hok
    exact ⟨by simp, hb⟩
  | cons seg rest ih =>
    intro acc chunks acc' hb hok
    obtain ⟨cs₁, acc₁, cs₂, hstep, hloop, rfl⟩ := packLoop_cons_ok hok
    by_cases hov : targetChunkSize < seg.text.length
    · obtain ⟨rfl, flushed, hfl, rfl⟩ := packStep_ok_oversized hov hstep
      have hih := ih emptyAcc cs₂ acc' (by simp [emptyAcc]) hloop
      refine ⟨?_, hih.2⟩
      intro c hc
      rcases List.mem_append.mp hc with hc | hc
      · rcases List.mem_append.mp hc with hc | hc
        · rcases flushAccIfNonempty_ok hfl with ⟨_, rfl⟩ | ⟨_, page, _, rfl⟩
          · simp at hc
          · rw [List.mem_singleton.mp hc]
            exact hb
        · obtain ⟨s, hs, rfl⟩ := List.mem_map.mp hc
          have hsz := slideSplit_sizes seg.text s hs
          simp only
          omega
      · exact hih.1 c hc
    · by_cases hfl : targetChunkSize < acc.text.length + seg.text.length
      · obtain ⟨rfl, page, hpm, rfl⟩ := packStep_ok_flush hov hfl hstep
        have hih := ih ⟨seg.text, [seg.page]⟩ cs₂ acc'
          (by simp only; omega) hloop
        refine ⟨?_, hih.2⟩
        intro c hc
        rcases List.mem_append.mp hc with hc | hc
        · rw [List.mem_singleton.mp hc]
          exact hb
        · exact hih.1 c hc
      · rw [packStep_append acc seg hov hfl] at hstep
        simp only [Except.ok.injEq, Prod.mk.injEq] at hstep
        obtain ⟨rfl, rfl⟩ := hstep
        have hih := ih _ cs₂ acc'
          (by simp only [List.length_append, sep]; simp at *; omega) hloop
        refine ⟨?_, hih.2⟩
        intro c hc
        rcases List.mem_append.mp hc with hc | hc
        · simp at hc
        · exact hih.1 c hc

theorem packLoop_carry (fn : String) :
    ∀ (segs : List Segment) (acc : PackAcc) (chunks : List Chunk) (acc' : PackAcc),
      packLoop fn segs acc = .ok (chunks, acc') →
      acc.text <+: acc'.text ∨ ∃ c ∈ chunks, acc.text <:+: c.text := by
  intro segs
  induction segs with
  | nil =>
    intro acc chunks acc' hok
    rw [packLoop_nil] at hok
    simp only [Except.ok.injEq, Prod.mk.injEq] at hok
    obtain ⟨rfl, rfl⟩ := hok
    exact Or.inl (List.prefix_refl _)
  | cons seg rest ih =>
    intro acc chunks acc' hok
    obtain ⟨cs₁, acc₁, cs₂, hstep, hloop, rfl⟩ := packLoop_cons_ok hok
    by_cases hov : targetChunkSize < seg.text.length
    · obtain ⟨rfl, flushed, hfl, rfl⟩ := packStep_ok_oversized hov hstep
      rcases flushAccIfNonempty_ok hfl with ⟨he, rfl⟩ | ⟨hne, page, hpm, rfl⟩
      · rw [he]
        exact Or.inl (List.nil_prefix)
      · refine Or.inr ⟨⟨acc.text, page, fn⟩, ?_, List.infix_refl _⟩
        simp
    · by_cases hflush : targetChunkSize < acc.text.length + seg.text.length
      · obtain ⟨rfl, page, hpm, rfl⟩ := packStep_ok_flush hov hflush hstep
        refine Or.inr ⟨⟨acc.text, page, fn⟩, ?_, List.infix_refl _⟩
        simp
      · rw [packStep_append acc seg hov hflush] at hstep
        simp only [Except.ok.injEq, Prod.mk.injEq] at hstep
        obtain ⟨rfl, rfl⟩ := hstep
        have hpre : acc.text <+: (acc.text ++ sep ++ seg.text) := by
          rw [List.append_assoc]
          exact List.prefix_append _ _
        rcases ih _ _ _ hloop with h | ⟨c, hc, hinf⟩
        · exact Or.inl (hpre.trans h)
        · exact Or.inr ⟨c, by simp [hc], hpre.isInfix.trans hinf⟩

theorem packLoop_cover (fn : String) :
    ∀ (segs : List Segment) (acc : PackAcc) (chunks : List Chunk) (acc' : PackAcc),
      packLoop fn segs acc = .ok (chunks, acc') →
      ∀ seg ∈ segs, (∃ c ∈ chunks, seg.text <:+: c.text)
        ∨ seg.text <:+: acc'.text
        ∨ (targetChunkSize < seg.text.length ∧ sliceChunks fn seg <:+: chunks) := by
  intro segs
  induction segs with
  | nil => intro acc chunks acc' _ seg hseg; exact absurd hseg (List.not_mem_nil seg)
  | cons seg rest ih =>
    intro acc chunks acc' hok s hs
    obtain ⟨cs₁, acc₁, cs₂, hstep, hloop, rfl⟩ := packLoop_cons_ok hok
    rcases List.mem_cons.mp hs with rfl | hs'
    · by_cases hov : targetChunkSize < s.text.length
      · obtain ⟨rfl, flushed, hfl, rfl⟩ := packStep_ok_oversized hov hstep
        refine Or.inr (Or.inr ⟨hov, flushed, cs₂, ?_⟩)
        rw [List.append_assoc]
      · by_cases hflush : targetChunkSize < acc.text.length + s.text.length
        · obtain ⟨rfl, page, hpm, rfl⟩ := packStep_ok_flush hov hflush hstep
          rcases packLoop_carry fn rest _ _ _ hloop with h | ⟨c, hc, hinf⟩
          · exact Or.inr (Or.inl (List.IsPrefix.isInfix h))
          · exact Or.inl ⟨c, by simp [hc], hinf⟩
        · rw [packStep_append acc s hov hflush] at hstep
          simp only [Except.ok.injEq, Prod.mk.injEq] at hstep
          obtain ⟨rfl, rfl⟩ := hstep
          have hinf₁ : s.text <:+: (acc.text ++ sep ++ s.text) :=
            (List.suffix_append _ _).isInfix
          rcases packLoop_carry fn rest _ _ _ hloop with h | ⟨c, hc, hinf⟩
          · exact Or.inr (Or.inl (hinf₁.trans h.isInfix))
          · exact Or.inl ⟨c, by simp [hc], hinf₁.trans hinf⟩
    · rcases ih acc₁ cs₂ acc' hloop s hs' with ⟨c, hc, hinf⟩ | h | ⟨hov, hinf⟩
      · exact Or.inl ⟨c, by simp [hc], hinf⟩
      · exact Or.inr (Or.inl h)
      · refine Or.inr (Or.inr ⟨hov, ?_⟩)
        obtain ⟨p, q, hpq⟩ := hinf
        exact ⟨cs₁ ++ p, q, by rw [← hpq]; simp⟩

/-- Where an accumulator's text can come from: it is empty, or began from
an empty accumulator (so it starts with the blank-line separator), or was
seeded by a normal-sized segment after a size-triggered flush (so it
starts with that segment's text). -/
def accShape (S : List Segment) (t : List Char) : Prop :=
  t = [] ∨ sep <+: t
  ∨ ∃ seg ∈ S, seg.text.length ≤ targetChunkSize ∧ seg.text ≠ [] ∧ seg.text <+: t

/-- The corresponding classification of an emitted chunk's text: it
starts with the separator (its accumulation began empty), or it is a
slice of an oversized segment, or it starts with the segment that seeded
its accumulator after a size-triggered flush. -/
def chunkShape (S : List Segment) (_fn : String) (c : Chunk) : Prop :=
  sep <+: c.text
  ∨ (∃ seg ∈ S, targetChunkSize < seg.text.length ∧ c.text ∈ slideSplit seg.text)
  ∨ (∃ seg ∈ S, seg.text.length ≤ targetChunkSize ∧ seg.text ≠ [] ∧ seg.text <+: c.text)

theorem accShape_of_flush {S : List Segment} {fn : String} {acc : PackAcc}
    (hsh : accShape S acc.text) (hne : acc.text ≠ []) (page : Option ℕ) :
    chunkShape S fn ⟨acc.text, page, fn⟩ := by
  rcases hsh with h | h | ⟨seg, hseg, h1, h2, h3⟩
  · exact absurd h hne
  · exact Or.inl h
  · exact Or.inr (Or.inr ⟨seg, hseg, h1, h2, h3⟩)

theorem accShape_append {S : List Segment} {acc : PackAcc} {seg : Segment}
    (hsh : accShape S acc.text) :
    accShape S (acc.text ++ sep ++ seg.text) := by
  rcases hsh with h | h | ⟨sg, hsg, h1, h2, h3⟩
  · refine Or.inr (Or.inl ?_)
    rw [h, List.nil_append]
    exact List.prefix_append _ _
  · refine Or.inr (Or.inl (h.trans ?_))
    rw [List.append_assoc]
    exact List.prefix_append _ _
  · refine Or.inr (Or.inr ⟨sg, hsg, h1, h2, h3.trans ?_⟩)
    rw [List.append_assoc]
    exact List.prefix_append _ _

theorem packLoop_shapes (fn : String) (S : List Segment) :
    ∀ (segs : List Segment) (acc : PackAcc) (chunks : List Chunk) (acc' : PackAcc),
      (∀ s ∈ segs, s ∈ S) →
      packLoop fn segs acc = .ok (chunks, acc') →
      accShape S acc.text →
      (∀ c ∈ chunks, chunkShape S fn c) ∧ accShape S acc'.text := by
  intro segs
  induction segs with
  | nil =>
    intro acc chunks acc' _ hok hsh
    rw [packLoop_nil] at hok
    simp only [Except.ok.injEq, Prod.mk.injEq] at hok
    obtain ⟨rfl, rfl⟩ := hok
    exact ⟨by simp, hsh⟩
  | cons seg rest ih =>
    intro acc chunks acc' hmem hok hsh
    have hseg : seg ∈ S := hmem seg (List.mem_cons_self seg rest)
    have hmem' : ∀ s ∈ rest, s ∈ S := fun s hs =>
      hmem s (List.mem_cons_of_mem seg hs)
    obtain ⟨cs₁, acc₁, cs₂, hstep, hloop, rfl⟩ := packLoop_cons_ok hok
    by_cases hov : targetChunkSize < seg.text.length
    · obtain ⟨rfl, flushed, hfl, rfl⟩ := packStep_ok_oversized hov hstep
      have hih := ih emptyAcc cs₂ acc' hmem' hloop (Or.inl rfl)
      refine ⟨?_, hih.2⟩
      intro c hc
      rcases List.mem_append.mp hc with hc | hc
      · rcases List.mem_append.mp hc with hc | hc
        · rcases flushAccIfNonempty_ok hfl with ⟨_, rfl⟩ | ⟨hne, page, hpm, rfl⟩
          · simp at hc
          · rw [List.mem_singleton.mp hc]
            exact accShape_of_flush hsh hne page
        · obtain ⟨s, hs, rfl⟩ := List.mem_map.mp hc
          exact Or.inr (Or.inl ⟨seg, hseg, hov, hs⟩)
      · exact hih.1 c hc
    · by_cases hflush : targetChunkSize < acc.text.length + seg.text.length
      · obtain ⟨rfl, page, hpm, rfl⟩ := packStep_ok_flush hov hflush hstep
        have hne : acc.text ≠ [] := by
          intro h
          rw [h] at hflush
          simp at hflush
          omega
        have hseed : accShape S seg.text := by
          by_cases hemp : seg.text = []
          · exact Or.inl hemp
          · exact Or.inr (Or.inr ⟨seg, hseg, le_of_not_lt hov, hemp,
              List.prefix_refl _⟩)
        have hih := ih ⟨seg.text, [seg.page]⟩ cs₂ acc' hmem' hloop hseed
        refine ⟨?_, hih.2⟩
        intro c hc
        rcases List.mem_append.mp hc with hc | hc
        · rw [List.mem_singleton.mp hc]
          exact accShape_of_flush hsh hne page
        · exact hih.1 c hc
      · rw [packStep_append acc seg hov hflush] at hstep
        simp only [Except.ok.injEq, Prod.mk.injEq] at hstep
        obtain ⟨rfl, rfl⟩ := hstep
        have hih := ih _ cs₂ acc' hmem' hloop (accShape_append hsh)
        refine ⟨?_, hih.2⟩
        intro c hc
        rcases List.mem_append.mp hc with hc | hc
        · simp at hc
        · exact hih.1 c hc

theorem packSegments_shapes (fn : String) (segs : List Segment)
    (chunks : List Chunk) (hok : packSegments fn segs = .ok chunks) :
    ∀ c ∈ chunks, chunkShape segs fn c := by
  obtain ⟨cs, acc, fl, hloop, hfl, rfl⟩ := packSegments_ok hok
  have hsh := packLoop_shapes fn segs segs emptyAcc cs acc (fun s hs => hs)
    hloop (Or.inl rfl)
  intro c hc
  rcases List.mem_append.mp hc with hc | hc
  · exact hsh.1 c hc
  · rcases flushAccIfNonempty_ok hfl with ⟨_, rfl⟩ | ⟨hne, page, hpm, rfl⟩
    · simp at hc
    · rw [List.mem_singleton.mp hc]
      exact accShape_of_flush hsh.2 hne page

/-- C5.  Whenever the packer completes, every produced chunk's text has
length at most `T + O` (accumulated chunks are in fact at most `T + 2`,
the two-character separator over the limit; oversized-segment slices at
most `T`), and every input segment's text is recoverable from the
output: a normal-sized segment's text is a contiguous substring of some
chunk, and an oversized segment's slices appear contiguously in the
output and de-overlap back to exactly the segment's text. -/
theorem packing_invariant (fn : String) (segs : List Segment) (chunks : List Chunk)
    (hok : packSegments fn segs = .ok chunks) :
    (∀ c ∈ chunks, c.text.length ≤ targetChunkSize + chunkOverlap)
    ∧ (∀ seg ∈ segs, seg.text = []
        ∨ (∃ c ∈ chunks, seg.text <:+: c.text)
        ∨ (targetChunkSize < seg.text.length ∧ sliceChunks fn seg <:+: chunks
            ∧ deoverlapJoin (slideSplit seg.text) = seg.text)) := by
  obtain ⟨cs, acc, fl, hloop, hfl, rfl⟩ := packSegments_ok hok
  have hb := packLoop_bound fn segs emptyAcc cs acc (by simp [emptyAcc]) hloop
  constructor
  · intro c hc
    have hco : targetChunkSize + 2 ≤ targetChunkSize + chunkOverlap := by
      norm_num [chunkOverlap]
    rcases List.mem_append.mp hc with hc | hc
    · exact (hb.1 c hc).trans hco
    · rcases flushAccIfNonempty_ok hfl with ⟨_, rfl⟩ | ⟨hne, page, hpm, rfl⟩
      · simp at hc
      · rw [List.mem_singleton.mp hc]
        exact hb.2.trans hco
  · intro seg hseg
    by_cases hemp : seg.text = []
    · exact Or.inl hemp
    rcases packLoop_cover fn segs emptyAcc cs acc hloop seg hseg with
      ⟨c, hc, hinf⟩ | hinf | ⟨hov, hslices⟩
    · exact Or.inr (Or.inl ⟨c, List.mem_append_left fl hc, hinf⟩)
    · rcases flushAccIfNonempty_ok hfl with ⟨hacc, rfl⟩ | ⟨hne, page, hpm, rfl⟩
      · rw [hacc] at hinf
        exact absurd (List.eq_nil_of_infix_nil hinf) hemp
      · refine Or.inr (Or.inl ⟨⟨acc.text, page, fn⟩, ?_, hinf⟩)
        exact List.mem_append_right cs (List.mem_singleton_self _)
    · refine Or.inr (Or.inr ⟨hov, ?_, deoverlapJoin_slideSplit seg.text⟩)
      obtain ⟨p, q, hpq⟩ := hslices
      exact ⟨p, q ++ fl, by rw [← hpq]; simp⟩

/-- A one-segment input used by the C5 witness. -/
def segsW : List Segment := [⟨['a'], some 1⟩]

/-- The packer output for `segsW`. -/
def chunksW : List Chunk := [⟨sep ++ ['a'], some 1, "f"⟩]

/-- Witness for C5 at a concrete packing run. -/
theorem packing_invariant_witness :
    packSegments "f" segsW = .ok chunksW
    ∧ ∀ c ∈ chunksW, c.text.length ≤ targetChunkSize + chunkOverlap :=
  ⟨rfl, (packing_invariant "f" segsW chunksW rfl).1⟩

/-- C10.  Accumulator seeding: a normal-sized segment appended to an
empty accumulator produces the accumulator text `"\n\n" ++ seg.text`
(the leading blank-line separator); a size-triggered flush seeds the new
accumulator with exactly the segment's text, no leading separator; a
fitting append extends the accumulator on the right, preserving its
seed as a prefix; and consequently every chunk, in every completed
packing run, either starts with the separator (its accumulation began
from the empty accumulator), or is a slice of an oversized segment, or
starts with the text of the segment that seeded it after a
size-triggered flush. -/
theorem accumulator_seeding (fn : String) :
    (∀ (acc : PackAcc) (seg : Segment), acc.text = [] →
      seg.text.length ≤ targetChunkSize →
      packStep fn acc seg =
        .ok ([], ⟨sep ++ seg.text, insertPage acc.pages seg.page⟩))
    ∧ (∀ (acc : PackAcc) (seg : Segment) (cs : List Chunk) (acc' : PackAcc),
        seg.text.length ≤ targetChunkSize →
        targetChunkSize < acc.text.length + seg.text.length →
        packStep fn acc seg = .ok (cs, acc') →
        acc'.text = seg.text ∧ acc'.pages = [seg.page]
          ∧ cs.map (fun c => c.text) = [acc.text])
    ∧ (∀ (acc : PackAcc) (seg : Segment),
        seg.text.length ≤ targetChunkSize →
        acc.text.length + seg.text.length ≤ targetChunkSize →
        packStep fn acc seg =
          .ok ([], ⟨acc.text ++ sep ++ seg.text, insertPage acc.pages seg.page⟩))
    ∧ (∀ (segs : List Segment) (chunks : List Chunk),
        packSegments fn segs = .ok chunks → ∀ c ∈ chunks, chunkShape segs fn c) := by
  refine ⟨?_, ?_, ?_, packSegments_shapes fn⟩
  · intro acc seg h hle
    have h2 : ¬ targetChunkSize < acc.text.length + seg.text.length := by
      rw [h]
      simpa using hle
    rw [packStep_append acc seg (not_lt.mpr hle) h2, h, List.nil_append]
  · intro acc seg cs acc' hle hgt hok
    obtain ⟨rfl, page, hpm, rfl⟩ := packStep_ok_flush (not_lt.mpr hle) hgt hok
    exact ⟨rfl, rfl, by simp⟩
  · intro acc seg hle hfit
    exact packStep_append acc seg (not_lt.mpr hle) (not_lt.mpr hfit)

/-- A 501-character accumulator used by the C10 witness. -/
def accW : PackAcc := ⟨List.replicate 501 'z', [some 1]⟩

/-- A 500-character segment used by the C10 witness. -/
def segW : Segment := ⟨List.replicate 500 'y', some 2⟩

/-- Witness for C10: seeding from the empty accumulator adds the leading
separator; a size-triggered flush (501 + 500 > 1000) seeds the new
accumulator with the segment text alone. -/
theorem accumulator_seeding_witness :
    (emptyAcc.text = [] ∧ (⟨['x'], some 3⟩ : Segment).text.length ≤ targetChunkSize
      ∧ packStep "f" emptyAcc ⟨['x'], some 3⟩ = .ok ([], ⟨sep ++ ['x'], [some 3]⟩))
    ∧ (segW.text.length ≤ targetChunkSize
      ∧ targetChunkSize < accW.text.length + segW.text.length
      ∧ packStep "f" accW segW
          = .ok ([⟨accW.text, some 1, "f"⟩], ⟨segW.text, [some 2]⟩)
      ∧ (⟨segW.text, [some 2]⟩ : PackAcc).text = segW.text
      ∧ (⟨segW.text, [some 2]⟩ : PackAcc).pages = [segW.page]
      ∧ ([⟨accW.text, some 1, "f"⟩] : List Chunk).map (fun c => c.text)
          = [accW.text]) := by
  have h1 : (⟨['x'], some 3⟩ : Segment).text.length ≤ targetChunkSize := by
    norm_num [targetChunkSize]
  have hsw : segW.text = List.replicate 500 'y' := rfl
  have haw : accW.text = List.replicate 501 'z' := rfl
  have h2 : segW.text.length ≤ targetChunkSize := by
    rw [hsw, List.length_replicate]
    decide
  have h3 : targetChunkSize < accW.text.length + segW.text.length := by
    rw [hsw, haw, List.length_replicate, List.length_replicate]
    decide
  have hstep : packStep "f" accW segW
      = .ok ([⟨accW.text, some 1, "f"⟩], ⟨segW.text, [some 2]⟩) := by
    rw [packStep, if_neg (not_lt.mpr h2), if_pos h3]
    rfl
  refine ⟨⟨rfl, h1, ?_⟩, h2, h3, hstep, ?_⟩
  · exact (accumulator_seeding "f").1 emptyAcc ⟨['x'], some 3⟩ rfl h1
  · have := (accumulator_seeding "f").2.1 accW segW
      [⟨accW.text, some 1, "f"⟩] ⟨segW.text, [some 2]⟩ h2 h3 hstep
    exact ⟨this.1, this.2.1, this.2.2⟩

/-! ### Chunk-id assignment (src/tasks.py, embed_and_store_batch)

`prepare_and_process_document` partitions the chunk list into batches of
at most 128 and dispatches one `embed_and_store_batch` per batch; inside
a batch, `for i, chunk_obj in enumerate(batch)` gives each chunk its
*within-batch* index `i`, and the stored id is
`f"{document_id}_{md5(f"{page}-{i}-{text}").hexdigest()}"`.  A chunk is
`(page_number_string, text)`, and `md5(...).hexdigest()` is abstracted as
an arbitrary function `h : String → String` — every property claimed
depends only on md5 being a deterministic function of its input, so the
theorems quantify over `h`. -/

def batchSize : ℕ := 128

/-- `f"{page_number}-{i}-{text_content}"`. -/
def chunkRawId (page_number : String) (i : ℕ) (text : String) : String :=
  page_number ++ "-" ++ toString i ++ "-" ++ text

/-- `f"{document_id}_{unique_hash}"`. -/
def chunkStoredId (h : String → String) (document_id : String)
    (page_number : String) (i : ℕ) (text : String) : String :=
  document_id ++ "_" ++ h (chunkRawId page_number i text)

/-- `[chunks[i:i+batch_size] for i in range(0, len(chunks), batch_size)]`. -/
def chunkBatches (l : List (String × String)) : List (List (String × String)) :=
  if l.isEmpty then [] else l.take batchSize :: chunkBatches (l.drop batchSize)
termination_by l.length
decreasing_by
  rename_i hne
  simp only [List.isEmpty_iff] at hne
  have : l.length ≠ 0 := fun h => hne (List.length_eq_zero.mp h)
  simp only [List.length_drop, batchSize]
  omega

/-- The id list one `embed_and_store_batch` call builds for its batch. -/
def batchStoredIds (h : String → String) (document_id : String)
    (batch : List (String × String)) : List String :=
  batch.enum.map (fun p => chunkStoredId h document_id p.2.1 p.1 p.2.2)

/-- All stored ids of one document, in dispatch order across batches. -/
def allStoredIds (h : String → String) (document_id : String)
    (chunks : List (String × String)) : List String :=
  ((chunkBatches chunks).map (batchStoredIds h document_id)).flatten

theorem length_batchStoredIds (h : String → String) (doc : String)
    (batch : List (String × String)) :
    (batchStoredIds h doc batch).length = batch.length := by
  simp [batchStoredIds]

theorem batchStoredIds_getElem (h : String → String) (doc : String)
    (batch : List (String × String)) (n : ℕ) (p : String × String)
    (hp : batch[n]? = some p) :
    (batchStoredIds h doc batch)[n]? = some (chunkStoredId h doc p.1 n p.2) := by
  simp only [batchStoredIds, List.getElem?_map, List.enum]
  rw [List.getElem?_enumFrom, hp]
  simp

theorem allStoredIds_cons (h : String → String) (doc : String)
    (chunks : List (String × String)) (hne : ¬ chunks.isEmpty = true) :
    allStoredIds h doc chunks =
      batchStoredIds h doc (chunks.take batchSize)
        ++ allStoredIds h doc (chunks.drop batchSize) := by
  unfold allStoredIds
  rw [chunkBatches, if_neg hne]
  simp only [List.map_cons, List.flatten_cons]

set_option maxRecDepth 2000 in
theorem allStoredIds_getElem (h : String → String) (doc : String) :
    ∀ (chunks : List (String × String)) (n : ℕ) (p : String × String),
      chunks[n]? = some p →
      (allStoredIds h doc chunks)[n]? =
        some (chunkStoredId h doc p.1 (n % batchSize) p.2) := by
  intro chunks
  induction chunks using chunkBatches.induct with
  | case1 l hl =>
    intro n p hp
    rw [List.isEmpty_iff.mp hl] at hp
    simp at hp
  | case2 l hl ih =>
    intro n p hp
    have hlen : n < l.length := by
      by_contra hc
      rw [List.getElem?_eq_none (le_of_not_lt hc)] at hp
      exact Option.noConfusion hp
    rw [allStoredIds_cons h doc l hl]
    by_cases hn : n < batchSize
    · have htk : n < (l.take batchSize).length := by
        simp only [List.length_take]
        omega
      rw [List.getElem?_append_left (by rw [length_batchStoredIds]; exact htk)]
      rw [batchStoredIds_getElem h doc _ n p
        (by rw [List.getElem?_take_of_lt hn]; exact hp)]
      rw [Nat.mod_eq_of_lt hn]
    · push_neg at hn
      have htk : (l.take batchSize).length = batchSize := by
        simp only [List.length_take]
        omega
      rw [List.getElem?_append_right (by rw [length_batchStoredIds, htk]; exact hn)]
      rw [length_batchStoredIds, htk]
      rw [ih (n - batchSize) p (by
        rw [List.getElem?_drop]
        rw [show batchSize + (n - batchSize) = n by omega]
        exact hp)]
      congr 2
      simp only [batchSize] at hn ⊢
      omega

/-- C9.  The id stored for the chunk at global position `n` is
`document_id ++ "_" ++ h(page ++ "-" ++ (n mod 128) ++ "-" ++ text)` — a
function of the document id, the page locator, the *within-batch* index
`n mod 128`, and the text alone, so re-ingesting identical content
reproduces identical ids; consequently two positions with equal page
locator, equal text, and equal within-batch index (necessarily in
different batches) are assigned the same id, and the later store
operation targets the earlier chunk's id. -/
theorem chunk_id_scheme (h : String → String) (doc : String)
    (chunks : List (String × String)) (n₁ n₂ : ℕ) (p : String × String)
    (hp₁ : chunks[n₁]? = some p) :
    (allStoredIds h doc chunks)[n₁]? =
      some (chunkStoredId h doc p.1 (n₁ % batchSize) p.2)
    ∧ (n₁ % batchSize = n₂ % batchSize → chunks[n₂]? = some p →
        (allStoredIds h doc chunks)[n₂]? = (allStoredIds h doc chunks)[n₁]?) := by
  refine ⟨allStoredIds_getElem h doc chunks n₁ p hp₁, fun hmod hp₂ => ?_⟩
  rw [allStoredIds_getElem h doc chunks n₂ p hp₂,
    allStoredIds_getElem h doc chunks n₁ p hp₁, hmod]

/-- 129 identical chunks: positions 0 and 128 fall in different batches
with the same within-batch index 0. -/
def chunksR : List (String × String) := List.replicate 129 ("1", "t")

/-- Witness for C9: positions 0 and 128 of `chunksR` receive the same
stored id. -/
theorem chunk_id_scheme_witness :
    chunksR[0]? = some ("1", "t")
    ∧ chunksR[128]? = some ("1", "t")
    ∧ 0 % batchSize = 128 % batchSize
    ∧ (allStoredIds (fun s => s) "doc" chunksR)[128]?
        = (allStoredIds (fun s => s) "doc" chunksR)[0]? := by
  have hcr : chunksR = List.replicate 129 ("1", "t") := rfl
  have h1 : chunksR[0]? = some ("1", "t") := by
    rw [hcr, List.getElem?_replicate, if_pos (by norm_num)]
  have h2 : chunksR[128]? = some ("1", "t") := by
    rw [hcr, List.getElem?_replicate, if_pos (by norm_num)]
  have hmod : 0 % batchSize = 128 % batchSize := by decide
  exact ⟨h1, h2, hmod,
    (chunk_id_scheme (fun s => s) "doc" chunksR 0 128 ("1", "t") h1).2 hmod h2⟩

end LexiGraph

